import Mathlib

/-!
Verification of the response-orchestration and retrieval subsystem of the
advanced-whatsapp-llm repository, against its natural-language specification.

The TypeScript sources are shallowly embedded: JavaScript numbers that hold
millisecond timestamps, durations and lengths are modelled as `Nat`;
similarity scores (only ever compared) as `Rat`; fallible asynchronous calls
as `Except String`; the process-wide mutable maps as association lists (or
functions) threaded explicitly.  Each definition cites the source file and
lines it embeds.
-/

namespace WALLM

/-! ## Data model (src/types/tools.ts) -/

/-- ToolResult (types/tools.ts:24-30).  `data` is an opaque payload. -/
structure ToolResult where
  success : Bool
  data : Option String := none
  error : Option String := none
  message : Option String := none
deriving Repr, DecidableEq

/-- ToolCall (types/tools.ts:50-54).  `parameters` is an opaque JSON payload. -/
structure ToolCall where
  id : String
  name : String
  parameters : String
deriving Repr, DecidableEq

/-- ToolCallResult (types/tools.ts:56-59). -/
structure ToolCallResult where
  toolCallId : String
  result : ToolResult
deriving Repr, DecidableEq

/-- The per-tool rate limit declaration (types/tools.ts:40-43). -/
structure RateLimit where
  maxCalls : Nat
  windowMs : Nat
deriving Repr, DecidableEq

/-- What `tool.execute(parameters, context)` settles to when awaited: a
result, or a thrown exception with a message. -/
inductive ExecOutcome where
  | ok (r : ToolResult)
  | throws (msg : String)
deriving Repr, DecidableEq

/-- LoadedTool (types/tools.ts:67-74) together with the fields of the wrapped
Tool that the execution path reads.  `execute` is the settled behaviour of the
tool's execute function. -/
structure LoadedTool where
  description : String := ""
  enabled : Bool := true
  rateLimit : Option RateLimit := none
  execute : ExecOutcome
  usageCount : Nat := 0
  errorCount : Nat := 0
deriving Repr, DecidableEq

/-- The mutable state of ToolManager (tools/index.ts:6-9): the `tools` map
keyed by tool name, and `rateLimitTracking`, a map from tool name and user id
to the recorded call timestamps. -/
structure ToolManagerState where
  tools : List (String × LoadedTool) := []
  rateLimitTracking : List ((String × String) × List Nat) := []
deriving Repr, DecidableEq

/-! ## ToolManager (src/tools/index.ts) -/

/-- The recorded timestamps for (toolName, userId); a missing entry reads as
the empty list (tools/index.ts:184-193). -/
def getTracking (st : ToolManagerState) (toolName userId : String) : List Nat :=
  (st.rateLimitTracking.lookup (toolName, userId)).getD []

/-- `toolLimits.set(userId, ...)` on the nested tracking maps. -/
def setTracking (st : ToolManagerState) (toolName userId : String) (calls : List Nat) :
    ToolManagerState :=
  { st with
    rateLimitTracking :=
      ((toolName, userId), calls) ::
        st.rateLimitTracking.filter (fun e => !(e.1 == (toolName, userId))) }

/-- Core of ToolManager.checkRateLimit (tools/index.ts:183-206) on one
(tool, caller) tracking list: keep the timestamps younger than the window,
reject if at/over `maxCalls` (leaving the stored list untouched), else record
`now`.  `now - t < windowMs` is the source comparison; recorded timestamps
are earlier `Date.now()` values, so `Nat` subtraction agrees with it. -/
def checkRateLimitList (userCalls : List Nat) (now : Nat) (rl : RateLimit) :
    Bool × List Nat :=
  let validCalls := userCalls.filter (fun t => now - t < rl.windowMs)
  if rl.maxCalls ≤ validCalls.length then (false, userCalls)
  else (true, validCalls ++ [now])

/-- ToolManager.checkRateLimit (tools/index.ts:183-206) at the state level. -/
def checkRateLimit (st : ToolManagerState) (toolName userId : String)
    (rl : RateLimit) (now : Nat) : Bool × ToolManagerState :=
  let r := checkRateLimitList (getTracking st toolName userId) now rl
  (r.1, setTracking st toolName userId r.2)

/-- Replace the LoadedTool stored under `name` (the source mutates the object
held in the `tools` map in place). -/
def setTool (st : ToolManagerState) (name : String) (lt : LoadedTool) :
    ToolManagerState :=
  { st with tools := st.tools.map (fun e => if e.1 == name then (e.1, lt) else e) }

/-- ToolManager.executeTool (tools/index.ts:109-181): tool not found, tool
disabled and rate-limit rejection each return a `success := false` result;
otherwise the tool's execute is awaited, a thrown exception is caught into a
`success := false` result (incrementing `errorCount`), and a settled result is
returned as-is (incrementing `usageCount`).  `userId` is
`context.message.from`; `now` is `Date.now()` at the rate-limit check. -/
def executeTool (st : ToolManagerState) (toolCall : ToolCall) (userId : String)
    (now : Nat) : ToolCallResult × ToolManagerState :=
  match st.tools.lookup toolCall.name with
  | none =>
    (⟨toolCall.id,
      { success := false, error := some ("Tool \'" ++ toolCall.name ++ "\' not found") }⟩, st)
  | some lt =>
    if !lt.enabled then
      (⟨toolCall.id,
        { success := false, error := some ("Tool \'" ++ toolCall.name ++ "\' is disabled") }⟩, st)
    else
      let rlStep : Bool × ToolManagerState :=
        match lt.rateLimit with
        | some rl => checkRateLimit st toolCall.name userId rl now
        | none => (true, st)
      if !rlStep.1 then
        (⟨toolCall.id,
          { success := false,
            error := some ("Rate limit exceeded for tool \'" ++ toolCall.name ++ "\'") }⟩,
          rlStep.2)
      else
        match lt.execute with
        | .ok r =>
          (⟨toolCall.id, r⟩,
            setTool rlStep.2 toolCall.name { lt with usageCount := lt.usageCount + 1 })
        | .throws e =>
          (⟨toolCall.id,
            { success := false, error := some ("Tool execution failed: " ++ e) }⟩,
            setTool rlStep.2 toolCall.name { lt with errorCount := lt.errorCount + 1 })

/-- ToolManager.getAvailableTools (tools/index.ts:208-216): the enabled tools
as (name, description). -/
def getAvailableTools (st : ToolManagerState) : List (String × String) :=
  (st.tools.filter (fun e => e.2.enabled)).map (fun e => (e.1, e.2.description))

/-! ## Tool execution engine (src/bot/chatbot.ts:316-403) -/

/-- The fixed per-call timeout of the engine (chatbot.ts:348): 30 seconds. -/
def toolTimeoutMs : Nat := 30000

/-- One simulated dispatch: the tool call together with `durationMs`, the
instant (relative to dispatch) at which the inner execution promise settles.
The inner promise never rejects (its body catches every exception), so its
settled value is always a ToolCallResult. -/
structure Dispatch where
  call : ToolCall
  durationMs : Nat
deriving Repr, DecidableEq

/-- The behaviour of the optional MCP service for tools absent from the local
registry: what `mcpService.executeTool` settles to for a given call. -/
abbrev McpOracle := Option (ToolCall → ExecOutcome)

/-- The body of the per-call execution promise (chatbot.ts:351-390): a local
tool goes through ToolManager.executeTool; otherwise the MCP service is used
when present; otherwise a "not found" error is thrown.  Any exception is
caught and converted into a `success := false` result, so the execution
promise always resolves. -/
def dispatchOne (st : ToolManagerState) (mcp : McpOracle) (d : Dispatch)
    (userId : String) (now : Nat) : ToolCallResult × ToolManagerState :=
  match st.tools.lookup d.call.name with
  | some _ => executeTool st d.call userId now
  | none =>
    match mcp with
    | some exec =>
      match exec d.call with
      | .ok r => (⟨d.call.id, r⟩, st)
      | .throws e =>
        (⟨d.call.id, { success := false, error := some ("Execution error: " ++ e) }⟩, st)
    | none =>
      (⟨d.call.id,
        { success := false,
          error := some ("Execution error: Tool \'" ++ d.call.name ++ "\' not found") }⟩, st)

/-- The race of the execution promise against the timeout promise
(chatbot.ts:344-393).  The timeout promise rejects with an Error after 30s;
if the execution promise has not settled strictly before that, the race
rejects with the timeout message.  The rejection is modelled as
`Except.error`. -/
def raceOutcome (d : Dispatch) (r : ToolCallResult) : Except String ToolCallResult :=
  if toolTimeoutMs ≤ d.durationMs then
    .error ("Tool " ++ d.call.name ++ " timed out after 30 seconds")
  else .ok r

/-- All dispatches, in input order.  The synchronous prefix of each async
arrow (tool lookup, enablement and rate-limit check, counter updates) runs in
input order before control yields, so the ToolManager state is threaded left
to right; the final state is the state after every execution promise has
settled (a timed-out execution is abandoned, not cancelled, and still runs to
completion). -/
def dispatchAll (st : ToolManagerState) (mcp : McpOracle) (ds : List Dispatch)
    (userId : String) (now : Nat) :
    List (Except String ToolCallResult) × ToolManagerState :=
  match ds with
  | [] => ([], st)
  | d :: rest =>
    let r := dispatchOne st mcp d userId now
    let rs := dispatchAll r.2 mcp rest userId now
    (raceOutcome d r.1 :: rs.1, rs.2)

/-- `Promise.all` over the raced dispatches (chatbot.ts:397): resolves with
the results in input order, or rejects with the first rejection.  All timeout
timers are registered in input order with the same delay, so the first
rejection in time is the first rejected race in input order. -/
def promiseAll (xs : List (Except String ToolCallResult)) :
    Except String (List ToolCallResult) :=
  match xs with
  | [] => .ok []
  | .error e :: _ => .error e
  | .ok r :: rest => (promiseAll rest).map (fun l => r :: l)

/-- Chatbot.executeToolCalls (chatbot.ts:316-403): dispatch every call, race
each against the 30s timeout, and await all of them.  Returns `Except.error`
exactly when some race rejects, i.e. when some call times out. -/
def executeToolCalls (st : ToolManagerState) (mcp : McpOracle)
    (ds : List Dispatch) (userId : String) (now : Nat) :
    Except String (List ToolCallResult) × ToolManagerState :=
  let r := dispatchAll st mcp ds userId now
  (promiseAll r.1, r.2)

/-! ## Rate-limit call sequences (for the sliding-window property) -/

/-- Run checkRateLimit's core over a chronological sequence of call instants
for one (tool, caller) pair, starting from a given tracking list: the final
tracking list and the admission decision of each call, in order. -/
def rateLimitRun (rl : RateLimit) : List Nat → List Nat → List Nat × List Bool
  | tracking, [] => (tracking, [])
  | tracking, now :: rest =>
    let s := checkRateLimitList tracking now rl
    let r := rateLimitRun rl s.2 rest
    (r.1, s.1 :: r.2)

/-- The timestamps of the admitted calls: instants paired with their
decisions, keeping the admitted ones. -/
def admittedTimes (ts : List Nat) (decisions : List Bool) : List Nat :=
  ((ts.zip decisions).filter (fun p => p.2)).map (fun p => p.1)

/-- The number of recorded timestamps younger than the window at `now`. -/
def freshCount (l : List Nat) (now windowMs : Nat) : Nat :=
  (l.filter (fun t => now - t < windowMs)).length

/-- Reference run that never cleans its record: it admits exactly when fewer
than `maxCalls` of the already admitted instants are younger than the window,
and appends every admitted instant.  The decisions of `rateLimitRun` from an
empty tracking list coincide with these (proved below). -/
def specRun (rl : RateLimit) : List Nat → List Nat → List Nat × List Bool
  | admitted, [] => (admitted, [])
  | admitted, now :: rest =>
    let ok := freshCount admitted now rl.windowMs < rl.maxCalls
    let r := specRun rl (if ok then admitted ++ [now] else admitted) rest
    (r.1, ok :: r.2)

/-! ## Retrieval engine (src/services/vector.ts:181-292 and the RAG layer) -/

/-- Where a search hit came from (vector.ts:47). -/
inductive SearchSource where
  | document
  | knowledge_base
deriving Repr, DecidableEq

/-- SearchResult (vector.ts:43-51), restricted to the fields the search path
computes with.  Similarity scores are only ever compared, so they are
modelled as rationals. -/
structure SearchResult where
  content : String
  similarity : Rat
  source : SearchSource
deriving Repr, DecidableEq

/-- A row returned by one of the two store queries (the rpc calls of
vector.ts:217-223 and 248-253). -/
structure Row where
  content : String
  similarity : Rat
deriving Repr, DecidableEq

/-- Insert into a list kept sorted by descending similarity; folding it is
the model of `results.sort((a, b) => b.similarity - a.similarity)`
(vector.ts:277). -/
def insertDesc (r : SearchResult) : List SearchResult → List SearchResult
  | [] => [r]
  | s :: t => if s.similarity ≤ r.similarity then r :: s :: t else s :: insertDesc r t

/-- The comparator sort of vector.ts:277. -/
def sortBySimilarityDesc (rs : List SearchResult) : List SearchResult :=
  rs.foldr insertDesc []

/-- VectorService.searchSimilarContent (vector.ts:181-292).
`embedOutcome` is what `this.embeddings.generateEmbedding(query)` settles to
(vector.ts:201): its failure escapes the try block and is re-thrown
(vector.ts:288-291), so it is returned as `Except.error`.  `docQuery` and
`kbQuery` are the two store queries; a failed one is logged and contributes
no rows (vector.ts:225-226, 255-256).  Rows are tagged with their source and
the merged list is sorted by similarity descending and truncated to `limit`
(default 5, vector.ts:192). -/
def searchSimilarContent (embedOutcome : Except String (List Rat))
    (docQuery kbQuery : List Rat → Except String (List Row))
    (limit : Nat := 5) (includeDocuments : Bool := true)
    (includeKnowledgeBase : Bool := true) :
    Except String (List SearchResult) :=
  match embedOutcome with
  | .error e => .error e
  | .ok emb =>
    let docResults : List SearchResult :=
      if includeDocuments then
        match docQuery emb with
        | .error _ => []
        | .ok rows => rows.map (fun r => ⟨r.content, r.similarity, .document⟩)
      else []
    let kbResults : List SearchResult :=
      if includeKnowledgeBase then
        match kbQuery emb with
        | .error _ => []
        | .ok rows => rows.map (fun r => ⟨r.content, r.similarity, .knowledge_base⟩)
      else []
    .ok ((sortBySimilarityDesc (docResults ++ kbResults)).take limit)

/-- The RAGService cache state (services/rag.ts:373-375): the private
embedding cache, and a count of how many times the embedding interface has
been invoked (the observable the caching claim is about). -/
structure RagCacheState where
  embeddingCache : List (String × List Rat) := []
  embedCalls : Nat := 0
deriving Repr, DecidableEq

/-- RAGService.getCachedEmbedding (services/rag.ts:748-751): looks the raw
(unnormalized) text's hash up in the embedding cache.  The MD5 hash is an
injective key transformation, modelled by keying on the text itself. -/
def getCachedEmbedding (s : RagCacheState) (text : String) : Option (List Rat) :=
  s.embeddingCache.lookup text

/-- RAGService.setCachedEmbedding (services/rag.ts:753-756). -/
def setCachedEmbedding (s : RagCacheState) (text : String) (embedding : List Rat) :
    RagCacheState :=
  { s with
    embeddingCache :=
      (text, embedding) :: s.embeddingCache.filter (fun e => !(e.1 == text)) }

/-- One search call as the RAG layer performs it:
RAGService.generateRAGResponse (services/rag.ts:500) calls
VectorService.searchSimilarContent, which invokes the embedding interface
unconditionally (vector.ts:201).  Neither getCachedEmbedding nor
setCachedEmbedding is called anywhere in the repository, so the embedding
cache is read nowhere and written nowhere on this path; only the invocation
counter moves. -/
def ragSearch (s : RagCacheState) (query : String)
    (embed : String → Except String (List Rat))
    (docQuery kbQuery : List Rat → Except String (List Row)) (limit : Nat := 5) :
    Except String (List SearchResult) × RagCacheState :=
  (searchSimilarContent (embed query) docQuery kbQuery limit,
    { s with embedCalls := s.embedCalls + 1 })

/-! ## Conversation memory (src/bot/chatbot.ts:584-593, 827-841) -/

/-- Message role (types/llm.ts). -/
inductive Role where
  | user
  | assistant
  | system
deriving Repr, DecidableEq

/-- LLMMessage (types/llm.ts), with textual content. -/
structure LLMMessage where
  role : Role
  content : String
deriving Repr, DecidableEq

/-- The conversationHistory map (chatbot.ts:43), read with get-or-default-[]
semantics: per-user ordered turn lists. -/
abbrev ConversationHistory := String → List LLMMessage

/-- The trim bound of updateConversationHistory (chatbot.ts:835). -/
def maxHistoryLengthStore : Nat := 20

/-- The read bound of getConversationHistory (chatbot.ts:587). -/
def maxHistoryLengthRead : Nat := 10

/-- Chatbot.updateConversationHistory (chatbot.ts:827-841): push the user
turn then the assistant turn, and when over 20 entries splice away the front
so that the most recent 20 remain. -/
def updateConversationHistory (h : ConversationHistory)
    (userId userMessage botResponse : String) : ConversationHistory :=
  fun u =>
    if u = userId then
      let history := h userId ++ [⟨.user, userMessage⟩, ⟨.assistant, botResponse⟩]
      if maxHistoryLengthStore < history.length then
        history.drop (history.length - maxHistoryLengthStore)
      else history
    else h u

/-- Chatbot.getConversationHistory (chatbot.ts:584-593): the stored list,
sliced to its last 10 entries when longer. -/
def getConversationHistory (h : ConversationHistory) (userId : String) :
    List LLMMessage :=
  let history := h userId
  if maxHistoryLengthRead < history.length then
    history.drop (history.length - maxHistoryLengthRead)
  else history

/-! ## Document chunking (src/services/pdf-enhanced.ts:373-400; the identical
legacy copy is PDFService.createChunks in services/pdf.ts) -/

/-- The whitespace characters String.prototype.trim removes, restricted to
the ASCII range that the processed texts use. -/
def isJsWhitespace (c : Char) : Bool :=
  c == ' ' || c == '\t' || c == '\n' || c == '\r' || c == '\x0b' || c == '\x0c'

/-- JavaScript trim on a character list. -/
def trimChars (l : List Char) : List Char :=
  ((l.dropWhile isJsWhitespace).reverse.dropWhile isJsWhitespace).reverse

/-- `text.substring(start, end)` for `start ≤ end` (out-of-range indices
clamp to the text). -/
def substring (l : List Char) (a b : Nat) : List Char :=
  (l.take b).drop a

/-- `text.lastIndexOf(c, i)`: the greatest index ≤ i holding `c`, if any. -/
def lastIndexOfFrom (l : List Char) (c : Char) (i : Nat) : Option Nat :=
  (((l.take (i + 1)).enum.filter (fun p => p.2 == c)).map (fun p => p.1)).max?

/-- `Math.max(sentenceEnd, paragraphEnd)` over the two lastIndexOf searches
(pdf-enhanced.ts:386-388); `none` models both being -1. -/
def breakCandidate (l : List Char) (i : Nat) : Option Nat :=
  match lastIndexOfFrom l '.' i, lastIndexOfFrom l '\n' i with
  | none, none => none
  | some a, none => some a
  | none, some b => some b
  | some a, some b => some (max a b)

/-- The window end chosen for the chunk starting at `start`
(pdf-enhanced.ts:382-393): `start + chunkSize`, moved back to just after a
sentence or paragraph break when one lies strictly past the midpoint of the
window (`breakPoint > start + chunkSize * 0.5`, an exact real comparison,
rendered as `2 * breakPoint > 2 * start + chunkSize`). -/
def windowEnd (l : List Char) (cs : Nat) (start : Nat) : Nat :=
  let end0 := start + cs
  if end0 < l.length then
    match breakCandidate l end0 with
    | some bp => if 2 * start + cs < 2 * bp then bp + 1 else end0
    | none => end0
  else end0

/-- The loop of createChunks (pdf-enhanced.ts:381-397) before trimming: the
raw windows `text.substring(start, end)` it slices, with the next start
rewound by `overlap`.  The loop has no structural decrease for arbitrary
parameters (for `overlap ≥ chunkSize` it does not terminate), so it is given
explicit fuel; `text.length` steps are enough whenever the start offset
advances (proved below for `2 * overlap ≤ chunkSize`). -/
def chunkWindows (l : List Char) (cs ov : Nat) : Nat → Nat → List (List Char)
  | 0, _ => []
  | fuel + 1, start =>
    if start < l.length then
      substring l start (windowEnd l cs start) ::
        chunkWindows l cs ov fuel (windowEnd l cs start - ov)
    else []

/-- EnhancedPDFService.createChunks (pdf-enhanced.ts:373-400): text no longer
than the chunk size is returned whole; otherwise each window is pushed
trimmed, and empty chunks are filtered out at the end. -/
def createChunks (l : List Char) (cs ov : Nat) : List (List Char) :=
  if l.length ≤ cs then [l]
  else
    ((chunkWindows l cs ov (l.length + 1) 0).map trimChars).filter
      (fun c => 0 < c.length)

/-- Concatenation of the chunks "with the overlap removed": every chunk after
the first is kept from its `overlap`-th character on (the spec sentence's
reconstruction). -/
def concatOverlapRemoved (ov : Nat) : List (List Char) → List Char
  | [] => []
  | c :: rest => c ++ (rest.map (fun w => w.drop ov)).flatten

/-! ## Response router and chat middleware (src/bot/chatbot.ts:139-177,
191-201, 222-314, 405-546, 595-777) -/

/-- BotMessage (types/whatsapp.ts), restricted to the fields the router
reads.  `sender` is the source's `from` field. -/
structure BotMessage where
  id : String
  content : String
  sender : String
  hasMedia : Bool := false
deriving Repr, DecidableEq

/-- BotResponse (types/whatsapp.ts). -/
structure BotResponse where
  content : String
  quotedMessage : Option String := none
deriving Repr, DecidableEq

/-- An LLM response as the router consumes it (types/llm.ts LLMResponse):
the text and the tool calls, each call paired with its simulated execution
duration (a model adjunct consumed by the engine's timeout race). -/
structure LLMResponse where
  content : String
  toolCalls : List Dispatch := []
deriving Repr, DecidableEq

/-- The outcome of RAGService.handleMultimodalMessage as the router reads it
(chatbot.ts:418-429): response text, and the ragContext summary fields. -/
structure RagOutcome where
  response : String
  relevantCount : Nat := 0
  totalSources : Nat := 0
  searchTimeMs : Nat := 0
deriving Repr, DecidableEq

/-- The environment of one routed message: what each awaited collaborator
settles to, and the configuration flags the router branches on.  `llm1` is
the first LLM call, `llm2` the finalize call after tool results, `rag` the
RAG service call; `needsTool` is the value of the regex-based
needsToolSupport detector on this message (chatbot.ts:686-692), passed as an
input because the router only branches on its boolean outcome. -/
structure RouterOracles where
  llm1 : Except String LLMResponse
  llm2 : Except String LLMResponse
  rag : Except String RagOutcome
  mcp : McpOracle
  mcpTools : List (String × String) := []
  needsTool : Bool := false
  ragAvailable : Bool := false
  ragEnabled : Bool := true

/-- The static fallback of generateResponse (chatbot.ts:308-313). -/
def fallbackGenerate : String := "🤔 I need a moment to think. Please try again."

/-- The static fallback of generateRAGResponse and generateHybridResponse
(chatbot.ts:436-441, 540-545). -/
def fallbackRag : String := "🤔 I encountered an issue processing your request. Please try again."

/-- The static fallback of the chat middleware and of generateSmartResponse
(chatbot.ts:168-173, 747-752). -/
def fallbackMiddleware : String := "🚨 Sorry, I encountered an error processing your message. Please try again."

/-- The fixed set of user-safe fallback strings of the router. -/
def fallbackStrings : List String := [fallbackGenerate, fallbackRag, fallbackMiddleware]

/-- The tool-usage summary line (chatbot.ts:286-301): deduplicated tool names
with call counts, and the execution mode. -/
def toolUsageHeader (tcs : List Dispatch) : String :=
  let toolNames := tcs.map (fun d => d.call.name)
  let uniqueTools := toolNames.eraseDups
  let count := fun n => (toolNames.filter (fun m => m == n)).length
  let summary := String.intercalate ", "
    (uniqueTools.map (fun n =>
      if 1 < count n then n ++ " (" ++ toString (count n) ++ "x)" else n))
  let executionMode := if 1 < tcs.length then "parallel" else "single"
  "🔧 *Used tools (" ++ executionMode ++ "): " ++ summary ++ "*\n\n"

/-- Chatbot.generateResponse (chatbot.ts:222-314).  The first LLM call may
return tool calls; then the engine runs and a second LLM call (with no tools)
finalizes.  The body's exceptions — a rejected LLM call, or the engine
rejecting on a tool timeout — are caught at chatbot.ts:308 and become the
static `fallbackGenerate` response.  The usage header is keyed on the
toolCalls of the response held *after* the possible reassignment at
chatbot.ts:277 (i.e. the second response when tools ran). -/
def generateResponseM (o : RouterOracles) (st : ToolManagerState)
    (msg : BotMessage) (now : Nat) : BotResponse × ToolManagerState :=
  match o.llm1 with
  | .error _ => ({ content := fallbackGenerate }, st)
  | .ok r1 =>
    if r1.toolCalls.isEmpty then
      let c := if r1.toolCalls.isEmpty then r1.content
        else toolUsageHeader r1.toolCalls ++ r1.content
      ({ content := c, quotedMessage := some msg.id }, st)
    else
      let eng := executeToolCalls st o.mcp r1.toolCalls msg.sender now
      match eng.1 with
      | .error _ => ({ content := fallbackGenerate }, eng.2)
      | .ok _ =>
        match o.llm2 with
        | .error _ => ({ content := fallbackGenerate }, eng.2)
        | .ok r2 =>
          let c := if r2.toolCalls.isEmpty then r2.content
            else toolUsageHeader r2.toolCalls ++ r2.content
          ({ content := c, quotedMessage := some msg.id }, eng.2)

/-- Chatbot.generateHybridResponse (chatbot.ts:444-546): the tool-augmented
flow, then a best-effort RAG enhancement whose failure is only logged, then
the usage header.  Every uncaught exception becomes `fallbackRag`. -/
def generateHybridResponseM (o : RouterOracles) (st : ToolManagerState)
    (msg : BotMessage) (now : Nat) : BotResponse × ToolManagerState :=
  match o.llm1 with
  | .error _ => ({ content := fallbackRag }, st)
  | .ok r1 =>
    let afterTools : Except String (LLMResponse × ToolManagerState) :=
      if r1.toolCalls.isEmpty then .ok (r1, st)
      else
        let eng := executeToolCalls st o.mcp r1.toolCalls msg.sender now
        match eng.1 with
        | .error e => .error e
        | .ok _ =>
          match o.llm2 with
          | .error e => .error e
          | .ok r2 => .ok (r2, eng.2)
    match afterTools with
    | .error _ =>
      ({ content := fallbackRag },
        (executeToolCalls st o.mcp r1.toolCalls msg.sender now).2)
    | .ok (rF, stF) =>
      let withRag :=
        if o.ragAvailable && !o.needsTool then
          match o.rag with
          | .ok rr =>
            if 0 < rr.relevantCount then
              rF.content ++ "\n\n📚 *Additional context:* " ++
                toString rr.totalSources ++ " documents found"
            else rF.content
          | .error _ => rF.content
        else rF.content
      let c := if rF.toolCalls.isEmpty then withRag
        else toolUsageHeader rF.toolCalls ++ withRag
      ({ content := c, quotedMessage := some msg.id }, stF)

/-- Chatbot.generateRAGResponse (chatbot.ts:405-442): without a RAG service
it falls back to generateResponse; a message that also matches the tool
detectors goes to the hybrid path; otherwise the RAG service answers, with a
sources note appended when context was found, and any exception becomes
`fallbackRag`. -/
def generateRAGResponseM (o : RouterOracles) (st : ToolManagerState)
    (msg : BotMessage) (now : Nat) : BotResponse × ToolManagerState :=
  if !o.ragAvailable then generateResponseM o st msg now
  else if o.needsTool then generateHybridResponseM o st msg now
  else
    match o.rag with
    | .error _ => ({ content := fallbackRag }, st)
    | .ok rr =>
      let c := if 0 < rr.relevantCount then
          rr.response ++ "\n\n📚 *Sources used:* " ++ toString rr.totalSources ++
            " documents found in " ++ toString rr.searchTimeMs ++ "ms"
        else rr.response
      ({ content := c, quotedMessage := some msg.id }, st)

/-- Chatbot.generateSmartResponse (chatbot.ts:722-753): tool-relevant queries
go to generateResponse; otherwise RAG when available and enabled; otherwise
generateResponse. -/
def generateSmartResponseM (o : RouterOracles) (st : ToolManagerState)
    (msg : BotMessage) (now : Nat) : BotResponse × ToolManagerState :=
  if o.needsTool then generateResponseM o st msg now
  else if o.ragAvailable && o.ragEnabled then generateRAGResponseM o st msg now
  else generateResponseM o st msg now

/-- Chatbot.shouldProcessMessage (chatbot.ts:191-201): skip messages whose
trimmed content is empty and messages starting with a slash. -/
def shouldProcessMessage (m : BotMessage) : Bool :=
  if (trimChars m.content.toList).length == 0 then false
  else if m.content.toList.head? == some '/' then false
  else true

/-- ASCII lowercasing, the fragment of String.prototype.toLowerCase the
matched phrases need. -/
def lowerAscii (s : String) : List Char :=
  s.toList.map fun c => if 'A' ≤ c && c ≤ 'Z' then Char.ofNat (c.toNat + 32) else c

/-- Chatbot.isToolQuery (chatbot.ts:595-609): case-insensitive substring
match against the fixed phrase list. -/
def isToolQuery (content : String) : Bool :=
  let lowerMessage := lowerAscii content
  [ "what tools do you have", "what tools", "what can you do",
    "what are your capabilities", "list tools", "available tools",
    "your tools", "help me"
  ].any fun q => (q.toList).IsInfix lowerMessage |> decide

/-- The static no-tools reply of handleToolQuery (chatbot.ts:760-765),
abbreviated to its head; its exact text plays no role in the claims. -/
def noToolsMessage : String := "😔 I don\'t have any external tools available right now"

/-- Chatbot.handleToolQuery (chatbot.ts:755-777): a static capability
summary rendered from the live registry; no LLM call is made. -/
def handleToolQuery (st : ToolManagerState) (mcpTools : List (String × String))
    (msg : BotMessage) : BotResponse :=
  let availableTools := getAvailableTools st ++ mcpTools
  if availableTools.isEmpty then
    { content := noToolsMessage, quotedMessage := some msg.id }
  else
    let toolDescriptions := String.intercalate "\n"
      (availableTools.map (fun t => "• **" ++ t.1 ++ "** - " ++ t.2))
    { content :=
        "🔧 **Available Tools (" ++ toString availableTools.length ++ "):**\n" ++
          toolDescriptions,
      quotedMessage := some msg.id }

/-- The chat middleware (chatbot.ts:139-177), the router boundary: skipped
messages defer to the next middleware untouched; meta-queries get the static
capability summary; every other message goes through generateSmartResponse,
whose produced response updates the conversation history; any exception in
the body is caught into the static `fallbackMiddleware` response.  Returns
the response handed to the transport together with the tool-manager state
and conversation history after the message. -/
def chatMiddleware (o : RouterOracles) (st : ToolManagerState)
    (hist : ConversationHistory) (msg : BotMessage) (now : Nat)
    (next : Option BotResponse) :
    Option BotResponse × ToolManagerState × ConversationHistory :=
  if !shouldProcessMessage msg then (next, st, hist)
  else if isToolQuery msg.content then
    (some (handleToolQuery st o.mcpTools msg), st, hist)
  else
    let r := generateSmartResponseM o st msg now
    (some r.1, r.2, updateConversationHistory hist msg.sender msg.content r.1.content)

/-! ## Theorems -/

/-! ### Sorting of search results -/

theorem mem_insertDesc {r a : SearchResult} {l : List SearchResult} :
    a ∈ insertDesc r l ↔ a = r ∨ a ∈ l := by
  induction l with
  | nil => simp [insertDesc]
  | cons s t ih =>
    by_cases h : s.similarity ≤ r.similarity
    · simp [insertDesc, h, ih]
    · simp [insertDesc, h, ih]
      tauto

theorem pairwise_insertDesc {r : SearchResult} {l : List SearchResult}
    (h : l.Pairwise (fun a b => b.similarity ≤ a.similarity)) :
    (insertDesc r l).Pairwise (fun a b => b.similarity ≤ a.similarity) := by
  induction l with
  | nil => simp [insertDesc]
  | cons s t ih =>
    rcases List.pairwise_cons.mp h with ⟨hs, ht⟩
    by_cases hsr : s.similarity ≤ r.similarity
    · simp only [insertDesc, if_pos hsr]
      refine List.pairwise_cons.mpr ⟨?_, h⟩
      intro x hx
      rcases List.mem_cons.mp hx with hxs | hxt
      · exact hxs ▸ hsr
      · exact le_trans (hs x hxt) hsr
    · simp only [insertDesc, if_neg hsr]
      refine List.pairwise_cons.mpr ⟨?_, ih ht⟩
      intro x hx
      rcases mem_insertDesc.mp hx with hxr | hxt
      · exact hxr ▸ le_of_lt (not_le.mp hsr)
      · exact hs x hxt

theorem pairwise_sortBySimilarityDesc (l : List SearchResult) :
    (sortBySimilarityDesc l).Pairwise (fun a b => b.similarity ≤ a.similarity) := by
  induction l with
  | nil => simp [sortBySimilarityDesc]
  | cons a t ih => exact pairwise_insertDesc ih

theorem mem_sortBySimilarityDesc {a : SearchResult} {l : List SearchResult} :
    a ∈ sortBySimilarityDesc l ↔ a ∈ l := by
  induction l with
  | nil => simp [sortBySimilarityDesc]
  | cons b t ih =>
    show a ∈ insertDesc b (sortBySimilarityDesc t) ↔ _
    rw [mem_insertDesc, ih]
    simp

/-! ### C4 -/

/-- C4: every similarity-search result list is sorted by similarity in
descending order, has length at most the caller-supplied limit, and is drawn
from the flat merge of the document-chunk rows and the knowledge-base rows. -/
theorem c4_search_sorted_bounded_flat_merge
    (emb : List Rat) (docQuery kbQuery : List Rat → Except String (List Row))
    (limit : Nat) (docRows kbRows : List Row) (out : List SearchResult)
    (hd : docQuery emb = .ok docRows) (hk : kbQuery emb = .ok kbRows)
    (h : searchSimilarContent (.ok emb) docQuery kbQuery limit = .ok out) :
    out.length ≤ limit ∧
    out.Pairwise (fun a b => b.similarity ≤ a.similarity) ∧
    out ⊆ docRows.map (fun r => ⟨r.content, r.similarity, .document⟩) ++
          kbRows.map (fun r => ⟨r.content, r.similarity, .knowledge_base⟩) := by
  have hout : out =
      (sortBySimilarityDesc
        (docRows.map (fun r => ⟨r.content, r.similarity, .document⟩) ++
         kbRows.map (fun r => ⟨r.content, r.similarity, .knowledge_base⟩))).take limit := by
    simp only [searchSimilarContent, hd, hk, if_pos] at h
    exact (Except.ok.injEq _ _).mp h |>.symm
  subst hout
  refine ⟨?_, ?_, ?_⟩
  · exact List.length_take_le _ _
  · exact (pairwise_sortBySimilarityDesc _).sublist (List.take_sublist _ _)
  · intro x hx
    exact mem_sortBySimilarityDesc.mp ((List.take_sublist _ _).subset hx)

/-- Witness for C4 at a concrete search: one document row, one
knowledge-base row, limit 5. -/
theorem c4_witness :
    ([⟨"refund policy text", (81 : Rat)/100, .document⟩,
      ⟨"faq entry", (62 : Rat)/100, .knowledge_base⟩] : List SearchResult).length ≤ 5 ∧
    ([⟨"refund policy text", (81 : Rat)/100, .document⟩,
      ⟨"faq entry", (62 : Rat)/100, .knowledge_base⟩] : List SearchResult).Pairwise
        (fun a b => b.similarity ≤ a.similarity) ∧
    ([⟨"refund policy text", (81 : Rat)/100, .document⟩,
      ⟨"faq entry", (62 : Rat)/100, .knowledge_base⟩] : List SearchResult) ⊆
      ([⟨"refund policy text", (81 : Rat)/100⟩] : List Row).map
          (fun r => ⟨r.content, r.similarity, .document⟩) ++
        ([⟨"faq entry", (62 : Rat)/100⟩] : List Row).map
          (fun r => ⟨r.content, r.similarity, .knowledge_base⟩) :=
  c4_search_sorted_bounded_flat_merge [] (fun _ => .ok [⟨"refund policy text", (81 : Rat)/100⟩])
    (fun _ => .ok [⟨"faq entry", (62 : Rat)/100⟩]) 5 _ _ _ rfl rfl (by
      simp [searchSimilarContent, sortBySimilarityDesc, insertDesc]
      norm_num [insertDesc])

/-! ### C8 -/

/-- C8: a failure of the embedding step is fatal and raised to the caller,
whereas a failure of either sub-source query is not fatal: it contributes
zero results from that source and the search still returns the (sorted,
truncated) results of the other source. -/
theorem c8_embedding_fatal_sources_not
    (e e2 : String) (emb : List Rat)
    (docQuery kbQuery : List Rat → Except String (List Row)) (limit : Nat) :
    searchSimilarContent (.error e) docQuery kbQuery limit = .error e ∧
    (∀ kbRows, docQuery emb = .error e2 → kbQuery emb = .ok kbRows →
      searchSimilarContent (.ok emb) docQuery kbQuery limit =
        .ok ((sortBySimilarityDesc
          (kbRows.map (fun r => ⟨r.content, r.similarity, .knowledge_base⟩))).take limit)) ∧
    (∀ docRows, docQuery emb = .ok docRows → kbQuery emb = .error e2 →
      searchSimilarContent (.ok emb) docQuery kbQuery limit =
        .ok ((sortBySimilarityDesc
          (docRows.map (fun r => ⟨r.content, r.similarity, .document⟩))).take limit)) := by
  refine ⟨rfl, ?_, ?_⟩
  · intro kbRows hd hk
    simp [searchSimilarContent, hd, hk]
  · intro docRows hd hk
    simp [searchSimilarContent, hd, hk]

/-- Witness for C8: a failing document query alongside a succeeding
knowledge-base query still returns the knowledge-base hit, and a failing
embedding is raised. -/
theorem c8_witness :
    searchSimilarContent (.ok ([] : List Rat)) (fun _ => .error "db down")
        (fun _ => .ok [⟨"kb entry", 1⟩]) 5 =
      .ok [⟨"kb entry", 1, .knowledge_base⟩] ∧
    searchSimilarContent (.error "embed down") (fun _ => .error "db down")
        (fun _ => .ok [⟨"kb entry", (1 : Rat)⟩]) 5 = .error "embed down" := by
  constructor
  · have h := (c8_embedding_fatal_sources_not "embed down" "db down" []
      (fun _ => .error "db down") (fun _ => .ok [⟨"kb entry", 1⟩]) 5).2.1
      [⟨"kb entry", 1⟩] rfl rfl
    simpa [sortBySimilarityDesc, insertDesc] using h
  · exact (c8_embedding_fatal_sources_not "embed down" "db down" []
      (fun _ => .error "db down") (fun _ => .ok [⟨"kb entry", 1⟩]) 5).1

/-! ### C5 -/

/-- C5 (counterexample): two consecutive searches with the same query text
invoke the embedding interface twice, not at most once, and the embedding
cache is neither consulted nor populated — it stays empty. -/
theorem c5_counterexample :
    (let s1 := (ragSearch ⟨[], 0⟩ "refund policy" (fun _ => .ok [1])
        (fun _ => .ok []) (fun _ => .ok []) 5).2
     let s2 := (ragSearch s1 "refund policy" (fun _ => .ok [1])
        (fun _ => .ok []) (fun _ => .ok []) 5).2
     s2.embedCalls = 2 ∧ s2.embeddingCache = [] ∧ ¬ s2.embedCalls ≤ 1) := by
  refine ⟨rfl, rfl, by decide⟩

/-- C5 (amended): the search path never touches the RAG layer's embedding
cache — each search call invokes the embedding interface exactly once, leaves
the cache exactly as it was (so getCachedEmbedding reads the same values
before and after), and returns what searchSimilarContent computes from the
fresh embedding. -/
theorem c5_search_never_uses_embedding_cache
    (s : RagCacheState) (query : String)
    (embed : String → Except String (List Rat))
    (docQuery kbQuery : List Rat → Except String (List Row)) (limit : Nat) :
    (ragSearch s query embed docQuery kbQuery limit).2.embedCalls = s.embedCalls + 1 ∧
    (ragSearch s query embed docQuery kbQuery limit).2.embeddingCache = s.embeddingCache ∧
    (∀ t, getCachedEmbedding (ragSearch s query embed docQuery kbQuery limit).2 t =
      getCachedEmbedding s t) ∧
    (ragSearch s query embed docQuery kbQuery limit).1 =
      searchSimilarContent (embed query) docQuery kbQuery limit :=
  ⟨rfl, rfl, fun _ => rfl, rfl⟩

/-! ### C6 -/

/-- The trim pattern shared by the store and read paths: keep the most
recent `n` entries when over `n`. -/
theorem trim_isSuffix {α : Type} (l : List α) (n : Nat) :
    List.IsSuffix (if n < l.length then l.drop (l.length - n) else l) l := by
  by_cases h : n < l.length
  · simpa [h] using List.drop_suffix _ _
  · simp only [h, if_false]
    exact List.suffix_rfl

theorem trim_length {α : Type} (l : List α) (n : Nat) :
    (if n < l.length then l.drop (l.length - n) else l).length = min l.length n := by
  by_cases h : n < l.length <;> simp [h, List.length_drop] <;> omega

theorem updateConversationHistory_apply_self (h : ConversationHistory)
    (u um bm : String) :
    updateConversationHistory h u um bm u =
      (if maxHistoryLengthStore <
          (h u ++ [(⟨.user, um⟩ : LLMMessage), ⟨.assistant, bm⟩]).length
       then (h u ++ [(⟨.user, um⟩ : LLMMessage), ⟨.assistant, bm⟩]).drop
              ((h u ++ [(⟨.user, um⟩ : LLMMessage), ⟨.assistant, bm⟩]).length -
                maxHistoryLengthStore)
       else h u ++ [(⟨.user, um⟩ : LLMMessage), ⟨.assistant, bm⟩]) := by
  simp [updateConversationHistory]

/-- C6: conversation memory is appended on each produced exchange and
trimmed FIFO to the most recent 20 turns (only a prefix — the oldest
entries — is ever discarded); reading a user's history returns a suffix
(the most recent entries, in chronological order) of bounded length; other
users' histories are untouched. -/
theorem c6_conversation_memory_bounded_fifo
    (h : ConversationHistory) (u v um bm : String) (hne : v ≠ u) :
    List.IsSuffix (updateConversationHistory h u um bm u)
      (h u ++ [⟨.user, um⟩, ⟨.assistant, bm⟩]) ∧
    (updateConversationHistory h u um bm u).length =
      min ((h u).length + 2) maxHistoryLengthStore ∧
    ((h u).length + 2 ≤ maxHistoryLengthStore →
      updateConversationHistory h u um bm u = h u ++ [⟨.user, um⟩, ⟨.assistant, bm⟩]) ∧
    updateConversationHistory h u um bm v = h v ∧
    List.IsSuffix (getConversationHistory h u) (h u) ∧
    (getConversationHistory h u).length ≤ maxHistoryLengthRead ∧
    (getConversationHistory h u).length ≤ maxHistoryLengthStore := by
  have hlen : (h u ++ [(⟨.user, um⟩ : LLMMessage), ⟨.assistant, bm⟩]).length =
      (h u).length + 2 := by simp
  refine ⟨?_, ?_, ?_, ?_, ?_, ?_, ?_⟩
  · rw [updateConversationHistory_apply_self]
    exact trim_isSuffix _ _
  · rw [updateConversationHistory_apply_self, trim_length, hlen]
  · intro hshort
    rw [updateConversationHistory_apply_self, if_neg (by omega)]
  · simp [updateConversationHistory, hne]
  · simpa [getConversationHistory] using trim_isSuffix (h u) maxHistoryLengthRead
  · have := trim_length (h u) maxHistoryLengthRead
    simp only [getConversationHistory]
    omega
  · have := trim_length (h u) maxHistoryLengthRead
    simp only [getConversationHistory]
    simp only [maxHistoryLengthRead, maxHistoryLengthStore] at *
    omega

/-- Witness for C6 at a concrete two-user store. -/
theorem c6_witness :
    ("bob" : String) ≠ "alice" ∧
    (updateConversationHistory (fun _ => []) "alice" "hi" "hello" "bob" = ([] : List LLMMessage)) := by
  have hne : ("bob" : String) ≠ "alice" := by decide
  exact ⟨hne,
    (c6_conversation_memory_bounded_fifo (fun _ => []) "alice" "bob" "hi" "hello" hne).2.2.2.1⟩

/-! ### Engine lemmas (for C1 and C3) -/

theorem executeTool_toolCallId (st : ToolManagerState) (c : ToolCall)
    (u : String) (now : Nat) : (executeTool st c u now).1.toolCallId = c.id := by
  unfold executeTool
  split
  · rfl
  · split
    · rfl
    · split <;> (dsimp only; split
                 · rfl
                 · split <;> rfl)

theorem dispatchOne_toolCallId (st : ToolManagerState) (mcp : McpOracle)
    (d : Dispatch) (u : String) (now : Nat) :
    (dispatchOne st mcp d u now).1.toolCallId = d.call.id := by
  unfold dispatchOne
  split
  · exact executeTool_toolCallId ..
  · split
    · split <;> rfl
    · rfl

/-- When every dispatch settles strictly before the timeout, the engine
resolves with one result per call, in input order, each carrying its call's
id. -/
theorem engine_ok_of_settled (st : ToolManagerState) (mcp : McpOracle)
    (ds : List Dispatch) (u : String) (now : Nat)
    (hdur : ∀ d ∈ ds, d.durationMs < toolTimeoutMs) :
    ∃ rs, (executeToolCalls st mcp ds u now).1 = .ok rs ∧
      rs.length = ds.length ∧
      ∀ i : Nat, (rs[i]?).map ToolCallResult.toolCallId =
        (ds[i]?).map (fun d => d.call.id) := by
  induction ds generalizing st with
  | nil => exact ⟨[], rfl, rfl, fun i => rfl⟩
  | cons d rest ih =>
    have hd : d.durationMs < toolTimeoutMs := hdur d (List.mem_cons_self ..)
    have hrest : ∀ x ∈ rest, x.durationMs < toolTimeoutMs :=
      fun x hx => hdur x (List.mem_cons_of_mem _ hx)
    obtain ⟨rs', hok, hlen, hids⟩ := ih ((dispatchOne st mcp d u now).2) hrest
    refine ⟨(dispatchOne st mcp d u now).1 :: rs', ?_, by simpa using hlen, ?_⟩
    · show promiseAll (dispatchAll st mcp (d :: rest) u now).1 = _
      have hrace : raceOutcome d (dispatchOne st mcp d u now).1 =
          .ok (dispatchOne st mcp d u now).1 := by
        simp [raceOutcome, Nat.not_le.mpr hd]
      simp only [dispatchAll, hrace, promiseAll]
      have : promiseAll (dispatchAll (dispatchOne st mcp d u now).2 mcp rest u now).1 =
          .ok rs' := hok
      rw [this]
      rfl
    · intro i
      cases i with
      | zero => simpa using (dispatchOne_toolCallId st mcp d u now)
      | succ j => simpa using hids j

/-- A dispatch at or past the timeout makes the whole engine call reject. -/
theorem engine_error_of_timeout (st : ToolManagerState) (mcp : McpOracle)
    (ds : List Dispatch) (u : String) (now : Nat) (d : Dispatch)
    (hmem : d ∈ ds) (hd : toolTimeoutMs ≤ d.durationMs) :
    ∃ e, (executeToolCalls st mcp ds u now).1 = .error e := by
  induction ds generalizing st with
  | nil => cases hmem
  | cons d0 rest ih =>
    by_cases h0 : toolTimeoutMs ≤ d0.durationMs
    · refine ⟨"Tool " ++ d0.call.name ++ " timed out after 30 seconds", ?_⟩
      show promiseAll (dispatchAll st mcp (d0 :: rest) u now).1 = _
      simp [dispatchAll, raceOutcome, h0, promiseAll]
    · have hmem' : d ∈ rest := by
        rcases List.mem_cons.mp hmem with rfl | h
        · exact absurd hd h0
        · exact h
      obtain ⟨e, he⟩ := ih ((dispatchOne st mcp d0 u now).2) hmem'
      refine ⟨e, ?_⟩
      show promiseAll (dispatchAll st mcp (d0 :: rest) u now).1 = _
      have hrace : raceOutcome d0 (dispatchOne st mcp d0 u now).1 =
          .ok (dispatchOne st mcp d0 u now).1 := by
        simp [raceOutcome, h0]
      simp only [dispatchAll, hrace, promiseAll]
      have : promiseAll (dispatchAll (dispatchOne st mcp d0 u now).2 mcp rest u now).1 =
          .error e := he
      rw [this]
      rfl

/-! ### C1 -/

/-- C1 (counterexample): a single tool call that settles only after the 30s
timeout makes the engine reject with an exception — the caller does not get
an array holding a failure result. -/
theorem c1_counterexample :
    (executeToolCalls
        ⟨[("weather", ({ execute := .ok { success := true } } : LoadedTool))], []⟩
        none [⟨⟨"call-1", "weather", "Paris"⟩, 40000⟩] "user-1" 0).1 =
      .error "Tool weather timed out after 30 seconds" ∧
    ¬ ∃ rs, (executeToolCalls
        ⟨[("weather", ({ execute := .ok { success := true } } : LoadedTool))], []⟩
        none [⟨⟨"call-1", "weather", "Paris"⟩, 40000⟩] "user-1" 0).1 = .ok rs := by
  have h1 : (executeToolCalls
      ⟨[("weather", ({ execute := .ok { success := true } } : LoadedTool))], []⟩
      none [⟨⟨"call-1", "weather", "Paris"⟩, 40000⟩] "user-1" 0).1 =
      .error "Tool weather timed out after 30 seconds" := rfl
  refine ⟨h1, ?_⟩
  rintro ⟨rs, hrs⟩
  rw [h1] at hrs
  exact Except.noConfusion hrs

/-- C1 (amended): tool-not-found, tool-disabled, rate-limit rejection, a
thrown local execution error and a thrown MCP execution error are each
converted into a `success := false` ToolCallResult, and when every call
settles before the 30s timeout the engine resolves with the result array;
but a call at or past the timeout makes the whole engine call reject with an
exception (the timeout race rejection propagates through Promise.all), so
the engine's caller does see an exception for timeouts. -/
theorem c1_failures_become_results_but_timeout_rejects
    (st : ToolManagerState) (mcp : McpOracle) (ds : List Dispatch)
    (d : Dispatch) (lt : LoadedTool) (rl : RateLimit) (u : String) (now : Nat)
    (e : String) (f : ToolCall → ExecOutcome) :
    (st.tools.lookup d.call.name = none → mcp = none →
      (dispatchOne st mcp d u now).1.result.success = false) ∧
    (st.tools.lookup d.call.name = some lt → lt.enabled = false →
      (dispatchOne st mcp d u now).1.result.success = false) ∧
    (st.tools.lookup d.call.name = some lt → lt.enabled = true →
      lt.rateLimit = some rl →
      rl.maxCalls ≤ freshCount (getTracking st d.call.name u) now rl.windowMs →
      (dispatchOne st mcp d u now).1.result.success = false) ∧
    (st.tools.lookup d.call.name = some lt → lt.enabled = true →
      lt.rateLimit = none → lt.execute = .throws e →
      (dispatchOne st mcp d u now).1.result.success = false) ∧
    (st.tools.lookup d.call.name = none → mcp = some f → f d.call = .throws e →
      (dispatchOne st mcp d u now).1.result.success = false) ∧
    ((∀ x ∈ ds, x.durationMs < toolTimeoutMs) →
      ∃ rs, (executeToolCalls st mcp ds u now).1 = .ok rs) ∧
    (d ∈ ds → toolTimeoutMs ≤ d.durationMs →
      ∃ e2, (executeToolCalls st mcp ds u now).1 = .error e2) := by
  refine ⟨?_, ?_, ?_, ?_, ?_, ?_, ?_⟩
  · intro h1 h2
    simp [dispatchOne, h1, h2]
  · intro h1 h2
    simp [dispatchOne, executeTool, h1, h2]
  · intro h1 h2 h3 h4
    simp only [freshCount, getTracking] at h4
    simp [dispatchOne, executeTool, h1, h2, h3, checkRateLimit,
      checkRateLimitList, getTracking, h4]
  · intro h1 h2 h3 h4
    simp [dispatchOne, executeTool, h1, h2, h3, h4]
  · intro h1 h2 h3
    simp [dispatchOne, h1, h2, h3]
  · intro hdur
    obtain ⟨rs, hok, -, -⟩ := engine_ok_of_settled st mcp ds u now hdur
    exact ⟨rs, hok⟩
  · intro hmem hd
    exact engine_error_of_timeout st mcp ds u now d hmem hd

/-- Witness for C1: a disabled tool's call becomes a failure result, and a
batch whose calls all settle within the timeout resolves. -/
theorem c1_witness :
    (dispatchOne
        ⟨[("weather",
          ({ enabled := false, execute := .ok { success := true } } : LoadedTool))], []⟩
        none ⟨⟨"call-1", "weather", "Paris"⟩, 5⟩ "user-1" 0).1.result.success = false ∧
    ∃ rs, (executeToolCalls
        ⟨[("weather",
          ({ enabled := false, execute := .ok { success := true } } : LoadedTool))], []⟩
        none [⟨⟨"call-1", "weather", "Paris"⟩, 5⟩] "user-1" 0).1 = .ok rs := by
  have h := c1_failures_become_results_but_timeout_rejects
    ⟨[("weather",
          ({ enabled := false, execute := .ok { success := true } } : LoadedTool))], []⟩
    none [⟨⟨"call-1", "weather", "Paris"⟩, 5⟩] ⟨⟨"call-1", "weather", "Paris"⟩, 5⟩
    { enabled := false, execute := .ok { success := true } } ⟨1, 1⟩ "user-1" 0
    "boom" (fun _ => .throws "boom")
  exact ⟨h.2.1 rfl rfl, h.2.2.2.2.2.1 (by decide)⟩

/-! ### C3 -/

/-- C3 (counterexample): with two calls issued together, one timing out, the
engine rejects — it does not return an array of two results with matching
toolCallIds. -/
theorem c3_counterexample :
    (executeToolCalls
        ⟨[("weather", ({ execute := .ok { success := true } } : LoadedTool))], []⟩
        none [⟨⟨"a", "weather", "Paris"⟩, 10⟩, ⟨⟨"b", "weather", "Tokyo"⟩, 31000⟩]
        "user-1" 0).1 =
      .error "Tool weather timed out after 30 seconds" ∧
    ¬ ∃ rs, (executeToolCalls
        ⟨[("weather", ({ execute := .ok { success := true } } : LoadedTool))], []⟩
        none [⟨⟨"a", "weather", "Paris"⟩, 10⟩, ⟨⟨"b", "weather", "Tokyo"⟩, 31000⟩]
        "user-1" 0).1 = .ok rs := by
  have h1 : (executeToolCalls
      ⟨[("weather", ({ execute := .ok { success := true } } : LoadedTool))], []⟩
      none [⟨⟨"a", "weather", "Paris"⟩, 10⟩, ⟨⟨"b", "weather", "Tokyo"⟩, 31000⟩]
      "user-1" 0).1 = .error "Tool weather timed out after 30 seconds" := rfl
  refine ⟨h1, ?_⟩
  rintro ⟨rs, hrs⟩
  rw [h1] at hrs
  exact Except.noConfusion hrs

/-- C3 (amended): provided every call settles before the 30s timeout, the
engine resolves with exactly one result per input call, in input order, the
i-th carrying the toolCallId of the i-th call. -/
theorem c3_order_preserved_when_settled
    (st : ToolManagerState) (mcp : McpOracle) (ds : List Dispatch)
    (u : String) (now : Nat)
    (hdur : ∀ d ∈ ds, d.durationMs < toolTimeoutMs) :
    ∃ rs, (executeToolCalls st mcp ds u now).1 = .ok rs ∧
      rs.length = ds.length ∧
      ∀ i : Nat, (rs[i]?).map ToolCallResult.toolCallId =
        (ds[i]?).map (fun d => d.call.id) :=
  engine_ok_of_settled st mcp ds u now hdur

/-- Witness for C3: the two-city weather scenario, both calls settling in
time. -/
theorem c3_witness :
    ∃ rs, (executeToolCalls
        ⟨[("weather", ({ execute := .ok { success := true } } : LoadedTool))], []⟩
        none [⟨⟨"a", "weather", "Paris"⟩, 10⟩, ⟨⟨"b", "weather", "Tokyo"⟩, 20⟩]
        "user-1" 0).1 = .ok rs ∧
      rs.length = [⟨⟨"a", "weather", "Paris"⟩, 10⟩,
        (⟨⟨"b", "weather", "Tokyo"⟩, 20⟩ : Dispatch)].length ∧
      ∀ i : Nat, (rs[i]?).map ToolCallResult.toolCallId =
        ([⟨⟨"a", "weather", "Paris"⟩, 10⟩,
          (⟨⟨"b", "weather", "Tokyo"⟩, 20⟩ : Dispatch)][i]?).map (fun d => d.call.id) :=
  c3_order_preserved_when_settled
    ⟨[("weather", ({ execute := .ok { success := true } } : LoadedTool))], []⟩
    none [⟨⟨"a", "weather", "Paris"⟩, 10⟩, ⟨⟨"b", "weather", "Tokyo"⟩, 20⟩]
    "user-1" 0 (by decide)

/-! ### Rate-limit lemmas (for C2) -/

/-- Freshness filters at a later instant refine those at an earlier one:
`now - t` only grows with `now`. -/
theorem filter_fresh_filter (l : List Nat) (n0 n W : Nat) (h : n0 ≤ n) :
    (l.filter (fun t => n0 - t < W)).filter (fun t => n - t < W) =
      l.filter (fun t => n - t < W) := by
  rw [List.filter_filter]
  apply List.filter_congr
  intro a _
  by_cases hq : n - a < W
  · have hp : n0 - a < W := lt_of_le_of_lt (Nat.sub_le_sub_right h a) hq
    simp [hq, hp]
  · simp [hq]

theorem freshCount_append (a b : List Nat) (n W : Nat) :
    freshCount (a ++ b) n W = freshCount a n W + freshCount b n W := by
  simp [freshCount, List.filter_append]

theorem freshCount_mono (l : List Nat) (n0 n W : Nat) (h : n0 ≤ n) :
    freshCount l n W ≤ freshCount l n0 W := by
  have := filter_fresh_filter l n0 n W h
  calc freshCount l n W = ((l.filter (fun t => n0 - t < W)).filter
        (fun t => n - t < W)).length := by rw [this]; rfl
    _ ≤ (l.filter (fun t => n0 - t < W)).length := List.length_filter_le _ _
    _ = freshCount l n0 W := rfl

theorem admittedTimes_cons (t : Nat) (d : Bool) (ts : List Nat) (ds : List Bool) :
    admittedTimes (t :: ts) (d :: ds) =
      if d then t :: admittedTimes ts ds else admittedTimes ts ds := by
  by_cases hd : d <;> simp [admittedTimes, hd]

theorem rateLimitRun_decisions_length (rl : RateLimit) (tr ts : List Nat) :
    (rateLimitRun rl tr ts).2.length = ts.length := by
  induction ts generalizing tr with
  | nil => rfl
  | cons now rest ih => simp [rateLimitRun, ih]

theorem specRun_decisions_length (rl : RateLimit) (adm ts : List Nat) :
    (specRun rl adm ts).2.length = ts.length := by
  induction ts generalizing adm with
  | nil => rfl
  | cons now rest ih => simp [specRun, ih]

/-- The reference run accumulates exactly the admitted instants. -/
theorem specRun_acc (rl : RateLimit) (adm ts : List Nat) :
    (specRun rl adm ts).1 = adm ++ admittedTimes ts (specRun rl adm ts).2 := by
  induction ts generalizing adm with
  | nil => simp [specRun, admittedTimes]
  | cons now rest ih =>
    by_cases hok : freshCount adm now rl.windowMs < rl.maxCalls
    · simp only [specRun, if_pos hok]
      rw [ih (adm ++ [now])]
      simp [admittedTimes_cons, hok, List.append_assoc]
    · simp only [specRun, if_neg hok]
      rw [ih adm]
      simp [admittedTimes_cons, hok]

/-- Runs compose over concatenated call sequences. -/
theorem rateLimitRun_append (rl : RateLimit) (tr : List Nat) (a b : List Nat) :
    rateLimitRun rl tr (a ++ b) =
      ((rateLimitRun rl (rateLimitRun rl tr a).1 b).1,
        (rateLimitRun rl tr a).2 ++ (rateLimitRun rl (rateLimitRun rl tr a).1 b).2) := by
  induction a generalizing tr with
  | nil => simp [rateLimitRun]
  | cons now rest ih => simp [rateLimitRun, ih]

theorem specRun_append (rl : RateLimit) (adm : List Nat) (a b : List Nat) :
    specRun rl adm (a ++ b) =
      ((specRun rl (specRun rl adm a).1 b).1,
        (specRun rl adm a).2 ++ (specRun rl (specRun rl adm a).1 b).2) := by
  induction a generalizing adm with
  | nil => simp [specRun]
  | cons now rest ih => simp [specRun, ih]

/-- Simulation: from a tracking list and an admitted-times list that agree on
every window at or after the calls, the cleaned run of checkRateLimit and the
never-cleaned reference run take the same decisions, and their final lists
still agree on every late-enough window. -/
theorem run_spec_sim (rl : RateLimit) (ts : List Nat) :
    ∀ (tr adm : List Nat) (b : Nat),
    ts.Pairwise (· ≤ ·) → (∀ x ∈ ts, b ≤ x) →
    (∀ now, b ≤ now → tr.filter (fun t => now - t < rl.windowMs) =
      adm.filter (fun t => now - t < rl.windowMs)) →
    (rateLimitRun rl tr ts).2 = (specRun rl adm ts).2 ∧
    (∀ now, b ≤ now → (∀ x ∈ ts, x ≤ now) →
      (rateLimitRun rl tr ts).1.filter (fun t => now - t < rl.windowMs) =
        (specRun rl adm ts).1.filter (fun t => now - t < rl.windowMs)) := by
  induction ts with
  | nil =>
    intro tr adm b _ _ htr
    exact ⟨rfl, fun now hb _ => htr now hb⟩
  | cons now0 rest ih =>
    intro tr adm b hpair hge htr
    have hb0 : b ≤ now0 := hge now0 (List.mem_cons_self ..)
    have hrest_ge : ∀ x ∈ rest, now0 ≤ x := (List.pairwise_cons.mp hpair).1
    have hrest_pair : rest.Pairwise (· ≤ ·) := (List.pairwise_cons.mp hpair).2
    have heq0 := htr now0 hb0
    have hfc : (tr.filter (fun t => now0 - t < rl.windowMs)).length =
        freshCount adm now0 rl.windowMs := by
      rw [heq0]; rfl
    by_cases hdec : rl.maxCalls ≤ (tr.filter (fun t => now0 - t < rl.windowMs)).length
    · -- rejected: tracking and admitted both unchanged
      have hokf : ¬ freshCount adm now0 rl.windowMs < rl.maxCalls := by omega
      have hcheck : checkRateLimitList tr now0 rl = (false, tr) := by
        simp [checkRateLimitList, hdec]
      have htr2 : ∀ now, now0 ≤ now →
          tr.filter (fun t => now - t < rl.windowMs) =
            adm.filter (fun t => now - t < rl.windowMs) :=
        fun now hn => htr now (le_trans hb0 hn)
      obtain ⟨hdecs, hfilters⟩ := ih tr adm now0 hrest_pair hrest_ge htr2
      constructor
      · simp only [rateLimitRun, specRun, hcheck, if_neg hokf]
        simp [hdecs, hokf]
      · intro now hb hle
        have hn0 : now0 ≤ now := hle now0 (List.mem_cons_self ..)
        have hle2 : ∀ x ∈ rest, x ≤ now := fun x hx => hle x (List.mem_cons_of_mem _ hx)
        simp only [rateLimitRun, specRun, hcheck, if_neg hokf]
        exact hfilters now hn0 hle2
    · -- admitted: the cleaned tracking gains now0, the reference appends now0
      have hokt : freshCount adm now0 rl.windowMs < rl.maxCalls := by omega
      have hcheck : checkRateLimitList tr now0 rl =
          (true, tr.filter (fun t => now0 - t < rl.windowMs) ++ [now0]) := by
        simp [checkRateLimitList, hdec]
      have htr2 : ∀ now, now0 ≤ now →
          (tr.filter (fun t => now0 - t < rl.windowMs) ++ [now0]).filter
              (fun t => now - t < rl.windowMs) =
            (adm ++ [now0]).filter (fun t => now - t < rl.windowMs) := by
        intro now hn
        rw [List.filter_append, List.filter_append,
          filter_fresh_filter tr now0 now rl.windowMs hn,
          htr now (le_trans hb0 hn)]
      obtain ⟨hdecs, hfilters⟩ :=
        ih (tr.filter (fun t => now0 - t < rl.windowMs) ++ [now0]) (adm ++ [now0])
          now0 hrest_pair hrest_ge htr2
      constructor
      · simp only [rateLimitRun, specRun, hcheck, if_pos hokt]
        simp [hdecs, hokt]
      · intro now hb hle
        have hn0 : now0 ≤ now := hle now0 (List.mem_cons_self ..)
        have hle2 : ∀ x ∈ rest, x ≤ now := fun x hx => hle x (List.mem_cons_of_mem _ hx)
        simp only [rateLimitRun, specRun, hcheck, if_pos hokt]
        exact hfilters now hn0 hle2

/-- The reference run never holds more than `maxCalls` admitted instants
inside any trailing window: freshness only shrinks with time, and a call is
admitted only when the fresh count is still below the cap. -/
theorem specRun_fresh_bound (rl : RateLimit) (ts : List Nat) :
    ∀ (adm : List Nat) (b : Nat),
    ts.Pairwise (· ≤ ·) → (∀ x ∈ ts, b ≤ x) →
    (∀ now, b ≤ now → freshCount adm now rl.windowMs ≤ rl.maxCalls) →
    ∀ now, b ≤ now → (∀ x ∈ ts, x ≤ now) →
      freshCount (specRun rl adm ts).1 now rl.windowMs ≤ rl.maxCalls := by
  induction ts with
  | nil =>
    intro adm b _ _ hinv now hb _
    exact hinv now hb
  | cons now0 rest ih =>
    intro adm b hpair hge hinv now hb hle
    have hb0 : b ≤ now0 := hge now0 (List.mem_cons_self ..)
    have hrest_ge : ∀ x ∈ rest, now0 ≤ x := (List.pairwise_cons.mp hpair).1
    have hrest_pair : rest.Pairwise (· ≤ ·) := (List.pairwise_cons.mp hpair).2
    have hn0 : now0 ≤ now := hle now0 (List.mem_cons_self ..)
    have hle2 : ∀ x ∈ rest, x ≤ now := fun x hx => hle x (List.mem_cons_of_mem _ hx)
    by_cases hok : freshCount adm now0 rl.windowMs < rl.maxCalls
    · have hinv2 : ∀ m, now0 ≤ m →
          freshCount (adm ++ [now0]) m rl.windowMs ≤ rl.maxCalls := by
        intro m hm
        have hmono := freshCount_mono adm now0 m rl.windowMs hm
        have hone : freshCount [now0] m rl.windowMs ≤ 1 := by
          simp only [freshCount]
          exact le_trans (List.length_filter_le _ _) (by simp)
        rw [freshCount_append]
        omega
      have := ih (adm ++ [now0]) now0 hrest_pair hrest_ge hinv2 now hn0 hle2
      simpa [specRun, hok] using this
    · have hinv2 : ∀ m, now0 ≤ m →
          freshCount adm m rl.windowMs ≤ rl.maxCalls := by
        intro m hm
        exact le_trans (freshCount_mono adm now0 m rl.windowMs hm)
          (hinv now0 hb0)
      have := ih adm now0 hrest_pair hrest_ge hinv2 now hn0 hle2
      simpa [specRun, hok] using this

/-! ### C2 -/

/-- C2: for a tool with rate limit (maxCalls, windowMs) and one caller, over
any chronological call sequence `pre ++ now :: post` processed by
checkRateLimit from an empty record: every call gets a decision; the call at
`now` is admitted exactly when fewer than maxCalls of the previously admitted
calls are younger than the window at `now` (so the (N+1)-st call inside a
window is rejected); an admitted call's timestamp is recorded; a rejection
happens exactly when at least maxCalls recorded timestamps are younger than
the window at check time; and at every check instant at most maxCalls
admitted calls (the current one included) lie inside the trailing window. -/
theorem c2_sliding_window_rate_limit (rl : RateLimit) (ts pre post : List Nat)
    (now : Nat) (hts : ts = pre ++ now :: post)
    (hsorted : ts.Pairwise (· ≤ ·)) :
    (rateLimitRun rl [] ts).2.length = ts.length ∧
    ((rateLimitRun rl [] ts).2)[pre.length]? =
      some (decide (freshCount
        (admittedTimes pre (rateLimitRun rl [] pre).2) now rl.windowMs < rl.maxCalls)) ∧
    (∀ trk n, (checkRateLimitList trk n rl).1 = true →
      n ∈ (checkRateLimitList trk n rl).2) ∧
    (∀ trk n, (checkRateLimitList trk n rl).1 = false ↔
      rl.maxCalls ≤ freshCount trk n rl.windowMs) ∧
    (rateLimitRun rl [] (pre ++ [now])).2 =
      ((rateLimitRun rl [] ts).2).take (pre.length + 1) ∧
    freshCount (admittedTimes (pre ++ [now]) (rateLimitRun rl [] (pre ++ [now])).2)
      now rl.windowMs ≤ rl.maxCalls := by
  subst hts
  have hpre_pair : pre.Pairwise (· ≤ ·) :=
    (List.pairwise_append.mp hsorted).1
  have hpre_le : ∀ x ∈ pre, x ≤ now := fun x hx =>
    (List.pairwise_append.mp hsorted).2.2 x hx now (List.mem_cons_self ..)
  have hprenow_sub : (pre ++ [now]).Sublist (pre ++ now :: post) :=
    List.Sublist.append_left (List.Sublist.cons₂ now (List.nil_sublist post)) pre
  have hprenow_pair : (pre ++ [now]).Pairwise (· ≤ ·) :=
    hsorted.sublist hprenow_sub
  have hprenow_le : ∀ x ∈ pre ++ [now], x ≤ now := by
    intro x hx
    rcases List.mem_append.mp hx with h | h
    · exact hpre_le x h
    · simp at h; omega
  -- the real run and the reference run agree on decisions, from empty state
  have hsimFull := run_spec_sim rl (pre ++ now :: post) [] [] 0 hsorted
    (fun x _ => Nat.zero_le x) (fun _ _ => rfl)
  have hsimPre := run_spec_sim rl pre [] [] 0 hpre_pair
    (fun x _ => Nat.zero_le x) (fun _ _ => rfl)
  have hsimPreNow := run_spec_sim rl (pre ++ [now]) [] [] 0 hprenow_pair
    (fun x _ => Nat.zero_le x) (fun _ _ => rfl)
  refine ⟨rateLimitRun_decisions_length .., ?_, ?_, ?_, ?_, ?_⟩
  · -- decision of the call at `now`
    rw [hsimFull.1, specRun_append]
    have hlen : (specRun rl [] pre).2.length = pre.length :=
      specRun_decisions_length ..
    rw [List.getElem?_append_right (by omega)]
    rw [hlen, Nat.sub_self]
    have hacc : (specRun rl [] pre).1 =
        admittedTimes pre (specRun rl [] pre).2 := by
      simpa using specRun_acc rl [] pre
    have hdecs : (specRun rl [] pre).2 = (rateLimitRun rl [] pre).2 :=
      (hsimPre.1).symm
    simp [specRun, hacc, hdecs]
  · intro trk n h
    by_cases hc : rl.maxCalls ≤ (trk.filter (fun t => n - t < rl.windowMs)).length
    · simp [checkRateLimitList, hc] at h
    · simp [checkRateLimitList, hc]
  · intro trk n
    constructor
    · intro h
      by_cases hc : rl.maxCalls ≤ (trk.filter (fun t => n - t < rl.windowMs)).length
      · exact hc
      · simp [checkRateLimitList, hc] at h
    · intro h
      simp [checkRateLimitList, freshCount] at h ⊢
      simp [h]
  · -- prefix-run decisions are a prefix of the full run's
    have := rateLimitRun_append rl [] (pre ++ [now]) post
    have hshape : pre ++ now :: post = (pre ++ [now]) ++ post := by simp
    rw [hshape, this]
    have hlen : (rateLimitRun rl [] (pre ++ [now])).2.length = pre.length + 1 := by
      rw [rateLimitRun_decisions_length]
      simp
    rw [List.take_left' hlen]
  · -- at most maxCalls admitted calls inside the trailing window at `now`
    have hdecs : (rateLimitRun rl [] (pre ++ [now])).2 =
        (specRun rl [] (pre ++ [now])).2 := hsimPreNow.1
    have hacc : (specRun rl [] (pre ++ [now])).1 =
        admittedTimes (pre ++ [now]) (specRun rl [] (pre ++ [now])).2 := by
      simpa using specRun_acc rl [] (pre ++ [now])
    rw [hdecs, ← hacc]
    exact specRun_fresh_bound rl (pre ++ [now]) [] 0 hprenow_pair
      (fun x _ => Nat.zero_le x)
      (fun m _ => by simp [freshCount]) now (Nat.zero_le now) hprenow_le

/-- Witness for C2: maxCalls 2, windowMs 10, calls at 0, 1, 2 — the third
call in the window is rejected. -/
theorem c2_witness :
    (rateLimitRun ⟨2, 10⟩ [] [0, 1, 2]).2.length = ([0, 1, 2] : List Nat).length ∧
    ((rateLimitRun ⟨2, 10⟩ [] [0, 1, 2]).2)[([0, 1] : List Nat).length]? =
      some (decide (freshCount
        (admittedTimes [0, 1] (rateLimitRun ⟨2, 10⟩ [] [0, 1]).2) 2
        (⟨2, 10⟩ : RateLimit).windowMs < (⟨2, 10⟩ : RateLimit).maxCalls)) ∧
    (rateLimitRun ⟨2, 10⟩ [] [0, 1, 2]).2 = [true, true, false] := by
  have h := c2_sliding_window_rate_limit ⟨2, 10⟩ [0, 1, 2] [0, 1] [] 2 rfl
    (by decide)
  exact ⟨h.1, h.2.1, by decide⟩

/-! ### Router fallback lemmas (for C7) -/

theorem generateResponseM_llm1_error (o : RouterOracles) (st : ToolManagerState)
    (msg : BotMessage) (now : Nat) (e : String) (h : o.llm1 = .error e) :
    generateResponseM o st msg now = ({ content := fallbackGenerate }, st) := by
  simp [generateResponseM, h]

theorem generateHybridResponseM_llm1_error (o : RouterOracles)
    (st : ToolManagerState) (msg : BotMessage) (now : Nat) (e : String)
    (h : o.llm1 = .error e) :
    generateHybridResponseM o st msg now = ({ content := fallbackRag }, st) := by
  simp [generateHybridResponseM, h]

theorem generateSmartResponseM_llm1_irrel (o : RouterOracles)
    (st : ToolManagerState) (msg : BotMessage) (now : Nat) (e1 e2 : String) :
    generateSmartResponseM { o with llm1 := .error e1 } st msg now =
      generateSmartResponseM { o with llm1 := .error e2 } st msg now := by
  by_cases hnt : o.needsTool <;> by_cases hra : o.ragAvailable <;>
    by_cases hre : o.ragEnabled <;>
      simp [generateSmartResponseM, generateRAGResponseM, generateHybridResponseM,
        generateResponseM, hnt, hra, hre]

theorem generateResponseM_llm2_irrel (o : RouterOracles) (st : ToolManagerState)
    (msg : BotMessage) (now : Nat) (e1 e2 : String) :
    generateResponseM { o with llm2 := .error e1 } st msg now =
      generateResponseM { o with llm2 := .error e2 } st msg now := by
  rcases h1 : o.llm1 with e | r1
  · simp [generateResponseM, h1]
  · by_cases hemp : r1.toolCalls.isEmpty
    · simp [generateResponseM, h1, hemp]
    · rcases heng : (executeToolCalls st o.mcp r1.toolCalls msg.sender now).1 with e | rs <;>
        simp [generateResponseM, h1, hemp, heng]

theorem generateHybridResponseM_llm2_irrel (o : RouterOracles)
    (st : ToolManagerState) (msg : BotMessage) (now : Nat) (e1 e2 : String) :
    generateHybridResponseM { o with llm2 := .error e1 } st msg now =
      generateHybridResponseM { o with llm2 := .error e2 } st msg now := by
  rcases h1 : o.llm1 with e | r1
  · simp [generateHybridResponseM, h1]
  · by_cases hemp : r1.toolCalls.isEmpty
    · simp [generateHybridResponseM, h1, hemp]
    · rcases heng : (executeToolCalls st o.mcp r1.toolCalls msg.sender now).1 with e | rs <;>
        simp [generateHybridResponseM, h1, hemp, heng]

theorem generateSmartResponseM_llm2_irrel (o : RouterOracles)
    (st : ToolManagerState) (msg : BotMessage) (now : Nat) (e1 e2 : String) :
    generateSmartResponseM { o with llm2 := .error e1 } st msg now =
      generateSmartResponseM { o with llm2 := .error e2 } st msg now := by
  by_cases hnt : o.needsTool <;> by_cases hra : o.ragAvailable <;>
    by_cases hre : o.ragEnabled <;>
      simp only [generateSmartResponseM, generateRAGResponseM, hnt, hra, hre,
        Bool.true_and, Bool.false_and, if_true, if_false, Bool.not_true,
        Bool.not_false, ite_true, ite_false] <;>
      first
        | exact generateResponseM_llm2_irrel o st msg now e1 e2
        | exact generateHybridResponseM_llm2_irrel o st msg now e1 e2
        | rfl

theorem generateHybridResponseM_rag_irrel (o : RouterOracles)
    (st : ToolManagerState) (msg : BotMessage) (now : Nat) (e1 e2 : String) :
    generateHybridResponseM { o with rag := .error e1 } st msg now =
      generateHybridResponseM { o with rag := .error e2 } st msg now := by
  rcases h1 : o.llm1 with e | r1
  · simp [generateHybridResponseM, h1]
  · by_cases hemp : r1.toolCalls.isEmpty
    · simp [generateHybridResponseM, h1, hemp]
    · rcases heng : (executeToolCalls st o.mcp r1.toolCalls msg.sender now).1 with e | rs
      · simp [generateHybridResponseM, h1, hemp, heng]
      · rcases h2 : o.llm2 with e | r2 <;>
          simp [generateHybridResponseM, h1, hemp, heng, h2]

theorem generateSmartResponseM_rag_irrel (o : RouterOracles)
    (st : ToolManagerState) (msg : BotMessage) (now : Nat) (e1 e2 : String) :
    generateSmartResponseM { o with rag := .error e1 } st msg now =
      generateSmartResponseM { o with rag := .error e2 } st msg now := by
  by_cases hnt : o.needsTool <;> by_cases hra : o.ragAvailable <;>
    by_cases hre : o.ragEnabled <;>
      simp only [generateSmartResponseM, generateRAGResponseM, hnt, hra, hre,
        Bool.true_and, Bool.false_and, if_true, if_false, Bool.not_true,
        Bool.not_false, ite_true, ite_false] <;>
      rfl

/-! ### C7 -/

/-- C7: every exception while generating a response — a rejected first LLM
call, a tool-engine rejection (timeout), a rejected finalize call, a rejected
RAG call — is caught and converted into one of the three static user-safe
fallback strings, on the tool path, the RAG path and at the middleware
boundary alike; and the transport-visible output never depends on the
exception's payload (replacing one diagnostic by another leaves the
middleware's response, tool state and history identical). -/
theorem c7_exceptions_become_static_fallbacks
    (msg : BotMessage) (o : RouterOracles) (st : ToolManagerState)
    (hist : ConversationHistory) (now : Nat) (next : Option BotResponse)
    (e e1 e2 : String) (r1 : LLMResponse) (d : Dispatch) :
    (o.llm1 = .error e →
      (generateResponseM o st msg now).1 = { content := fallbackGenerate }) ∧
    (o.llm1 = .ok r1 → r1.toolCalls ≠ [] → d ∈ r1.toolCalls →
      toolTimeoutMs ≤ d.durationMs →
      (generateResponseM o st msg now).1 = { content := fallbackGenerate }) ∧
    (o.llm1 = .ok r1 → r1.toolCalls ≠ [] →
      (∀ x ∈ r1.toolCalls, x.durationMs < toolTimeoutMs) → o.llm2 = .error e →
      (generateResponseM o st msg now).1 = { content := fallbackGenerate }) ∧
    (o.ragAvailable = true → o.needsTool = false → o.rag = .error e →
      (generateRAGResponseM o st msg now).1 = { content := fallbackRag }) ∧
    (shouldProcessMessage msg = true → isToolQuery msg.content = false →
      o.needsTool = true → o.llm1 = .error e →
      ∃ resp, (chatMiddleware o st hist msg now next).1 = some resp ∧
        resp.content ∈ fallbackStrings) ∧
    (chatMiddleware { o with llm1 := .error e1 } st hist msg now next =
      chatMiddleware { o with llm1 := .error e2 } st hist msg now next) ∧
    (chatMiddleware { o with llm2 := .error e1 } st hist msg now next =
      chatMiddleware { o with llm2 := .error e2 } st hist msg now next) ∧
    (chatMiddleware { o with rag := .error e1 } st hist msg now next =
      chatMiddleware { o with rag := .error e2 } st hist msg now next) := by
  refine ⟨?_, ?_, ?_, ?_, ?_, ?_, ?_, ?_⟩
  · intro h
    exact congrArg Prod.fst (generateResponseM_llm1_error o st msg now e h)
  · intro h1 hne hmem hto
    obtain ⟨e2m, he2⟩ := engine_error_of_timeout st o.mcp r1.toolCalls
      msg.sender now d hmem hto
    have hemp : r1.toolCalls.isEmpty = false := by
      simpa [List.isEmpty_iff] using hne
    simp [generateResponseM, h1, hemp, he2]
  · intro h1 hne hdur h2
    obtain ⟨rs, hok, -, -⟩ :=
      engine_ok_of_settled st o.mcp r1.toolCalls msg.sender now hdur
    have hemp : r1.toolCalls.isEmpty = false := by
      simpa [List.isEmpty_iff] using hne
    simp [generateResponseM, h1, hemp, hok, h2]
  · intro hra hnt hrag
    simp [generateRAGResponseM, hra, hnt, hrag]
  · intro hs ht hnt h1
    refine ⟨{ content := fallbackGenerate }, ?_, by simp [fallbackStrings]⟩
    simp [chatMiddleware, hs, ht, generateSmartResponseM, hnt,
      generateResponseM_llm1_error o st msg now e h1]
  · by_cases hs : shouldProcessMessage msg
    · by_cases ht : isToolQuery msg.content
      · simp [chatMiddleware, hs, ht]
      · simp [chatMiddleware, hs, ht,
          generateSmartResponseM_llm1_irrel o st msg now e1 e2]
    · simp [chatMiddleware, hs]
  · by_cases hs : shouldProcessMessage msg
    · by_cases ht : isToolQuery msg.content
      · simp [chatMiddleware, hs, ht]
      · simp [chatMiddleware, hs, ht,
          generateSmartResponseM_llm2_irrel o st msg now e1 e2]
    · simp [chatMiddleware, hs]
  · by_cases hs : shouldProcessMessage msg
    · by_cases ht : isToolQuery msg.content
      · simp [chatMiddleware, hs, ht]
      · simp [chatMiddleware, hs, ht,
          generateSmartResponseM_rag_irrel o st msg now e1 e2]
    · simp [chatMiddleware, hs]

/-! ### C10 -/

theorem trimChars_eq_nil_iff (l : List Char) :
    trimChars l = [] ↔ ∀ c ∈ l, isJsWhitespace c := by
  constructor
  · intro h c hc
    by_contra hnc
    have h1 : l.dropWhile isJsWhitespace ≠ [] := by
      intro hnil
      exact hnc (List.dropWhile_eq_nil_iff.mp hnil c hc)
    have h2 : (l.dropWhile isJsWhitespace).reverse.dropWhile isJsWhitespace ≠ [] := by
      intro hnil
      have hall : ∀ x ∈ (l.dropWhile isJsWhitespace).reverse, isJsWhitespace x :=
        List.dropWhile_eq_nil_iff.mp hnil
      have hpos : 0 < (l.dropWhile isJsWhitespace).length := by
        rcases hd : l.dropWhile isJsWhitespace with _ | ⟨a, t⟩
        · exact absurd hd h1
        · simp [hd]
      have hnot := List.dropWhile_get_zero_not (p := isJsWhitespace) l hpos
      have hmem : (l.dropWhile isJsWhitespace).get ⟨0, hpos⟩ ∈
          (l.dropWhile isJsWhitespace).reverse := by
        rw [List.mem_reverse]
        exact List.get_mem ..
      exact hnot (hall _ hmem)
    unfold trimChars at h
    simp only [List.reverse_eq_nil_iff] at h
    exact h2 h
  · intro h
    unfold trimChars
    have : l.dropWhile isJsWhitespace = [] := List.dropWhile_eq_nil_iff.mpr h
    simp [this]

/-- C10: a message whose content is empty or whitespace-only, or starts with
a slash, is exactly a message the middleware skips; on it the middleware
returns the next middleware's response unchanged and leaves the tool-manager
state (with its usage counters and rate-limit records) and every user's
conversation history untouched. -/
theorem c10_skipped_messages_leave_state_unchanged
    (msg : BotMessage) (o : RouterOracles) (st : ToolManagerState)
    (hist : ConversationHistory) (now : Nat) (next : Option BotResponse) :
    (shouldProcessMessage msg = false ↔
      ((∀ c ∈ msg.content.toList, isJsWhitespace c) ∨
        msg.content.toList.head? = some '/')) ∧
    (shouldProcessMessage msg = false →
      chatMiddleware o st hist msg now next = (next, st, hist)) := by
  constructor
  · unfold shouldProcessMessage
    by_cases h1 : (trimChars msg.content.toList).length == 0
    · simp only [h1, if_true]
      have h0 : trimChars msg.content.toList = [] := by
        simpa [List.length_eq_zero] using h1
      constructor
      · intro _
        exact Or.inl ((trimChars_eq_nil_iff _).mp h0)
      · intro _
        first | rfl | trivial
    · simp only [h1, if_false]
      by_cases h2 : msg.content.toList.head? == some '/'
      · simp only [h2, if_true]
        simp at h2
        simp [h2]
      · simp only [h2, if_false]
        constructor
        · intro h
          exact absurd h (by simp)
        · intro h
          rcases h with h | h
          · exfalso
            apply h1
            simp [List.length_eq_zero, trimChars_eq_nil_iff]
            exact h
          · exact absurd h (by simpa using h2)
  · intro h
    simp [chatMiddleware, h]

/-! ### Chunking lemmas (for C9) -/

theorem natList_max?_le {l : List Nat} {a : Nat} (h : l.max? = some a) :
    a ∈ l ∧ ∀ b ∈ l, b ≤ a := by
  rw [List.max?_eq_some_iff] at h
  · exact h
  · exact fun x => le_refl x
  · exact fun x y => max_choice x y
  · exact fun x y z => max_le_iff

theorem lastIndexOfFrom_le {l : List Char} {c : Char} {i j : Nat}
    (h : lastIndexOfFrom l c i = some j) : j ≤ i := by
  unfold lastIndexOfFrom at h
  obtain ⟨hmem, -⟩ := natList_max?_le h
  simp only [List.mem_map, List.mem_filter] at hmem
  obtain ⟨⟨a, b⟩, ⟨henum, -⟩, rfl⟩ := hmem
  have := List.fst_lt_of_mem_enum henum
  simp only [List.length_take] at this
  omega

theorem breakCandidate_le {l : List Char} {i bp : Nat}
    (h : breakCandidate l i = some bp) : bp ≤ i := by
  unfold breakCandidate at h
  rcases h1 : lastIndexOfFrom l '.' i with _ | a <;>
    rcases h2 : lastIndexOfFrom l '\n' i with _ | b <;>
      rw [h1, h2] at h <;> simp at h
  · exact h ▸ lastIndexOfFrom_le h2
  · exact h ▸ lastIndexOfFrom_le h1
  · have ha := lastIndexOfFrom_le h1
    have hb := lastIndexOfFrom_le h2
    subst h
    omega

/-- The chosen window end never exceeds the raw offset by more than the one
included break character. -/
theorem windowEnd_le (l : List Char) (cs start : Nat) :
    windowEnd l cs start ≤ start + cs + 1 := by
  unfold windowEnd
  dsimp only
  split
  · rcases hb : breakCandidate l (start + cs) with _ | bp
    · simp
    · have := breakCandidate_le hb
      simp only
      split <;> omega
  · omega

/-- Under the call-site parameters (overlap at most half the chunk size) the
start offset strictly advances past the overlap rewind. -/
theorem windowEnd_progress (l : List Char) (cs ov start : Nat)
    (hcs : 0 < cs) (hov : 2 * ov ≤ cs) :
    start + ov < windowEnd l cs start := by
  unfold windowEnd
  dsimp only
  split
  · rcases hb : breakCandidate l (start + cs) with _ | bp
    · simp
      omega
    · simp only
      split <;> omega
  · omega

theorem trimChars_length_le (c : List Char) : (trimChars c).length ≤ c.length := by
  unfold trimChars
  calc (((c.dropWhile isJsWhitespace).reverse.dropWhile isJsWhitespace).reverse).length
      = ((c.dropWhile isJsWhitespace).reverse.dropWhile isJsWhitespace).length := by
        rw [List.length_reverse]
    _ ≤ (c.dropWhile isJsWhitespace).reverse.length :=
        (List.dropWhile_sublist _).length_le
    _ = (c.dropWhile isJsWhitespace).length := by rw [List.length_reverse]
    _ ≤ c.length := (List.dropWhile_sublist _).length_le

/-- Trimming removes only leading and trailing whitespace. -/
theorem trimChars_decomposition (c : List Char) :
    ∃ p q, c = p ++ trimChars c ++ q ∧
      (∀ x ∈ p, isJsWhitespace x) ∧ (∀ x ∈ q, isJsWhitespace x) := by
  refine ⟨c.takeWhile isJsWhitespace,
    ((c.dropWhile isJsWhitespace).reverse.takeWhile isJsWhitespace).reverse, ?_, ?_, ?_⟩
  · have h1 : c = c.takeWhile isJsWhitespace ++ c.dropWhile isJsWhitespace :=
      (List.takeWhile_append_dropWhile _ _).symm
    have h2 : (c.dropWhile isJsWhitespace).reverse =
        (c.dropWhile isJsWhitespace).reverse.takeWhile isJsWhitespace ++
          (c.dropWhile isJsWhitespace).reverse.dropWhile isJsWhitespace :=
      (List.takeWhile_append_dropWhile _ _).symm
    have h3 : c.dropWhile isJsWhitespace =
        ((c.dropWhile isJsWhitespace).reverse.dropWhile isJsWhitespace).reverse ++
          ((c.dropWhile isJsWhitespace).reverse.takeWhile isJsWhitespace).reverse :=
      calc c.dropWhile isJsWhitespace
          = (c.dropWhile isJsWhitespace).reverse.reverse :=
            (List.reverse_reverse _).symm
        _ = ((c.dropWhile isJsWhitespace).reverse.takeWhile isJsWhitespace ++
              (c.dropWhile isJsWhitespace).reverse.dropWhile isJsWhitespace).reverse := by
            rw [← h2]
        _ = _ := List.reverse_append _ _
    conv_lhs => rw [h1, h3]
    unfold trimChars
    rw [List.append_assoc]
  · exact fun x hx => List.mem_takeWhile_imp hx
  · intro x hx
    rw [List.mem_reverse] at hx
    exact List.mem_takeWhile_imp hx

theorem substring_length_le (l : List Char) (a b : Nat) :
    (substring l a b).length ≤ b - a := by
  simp only [substring, List.length_drop, List.length_take]
  omega

theorem chunkWindows_length_le (l : List Char) (cs ov : Nat) :
    ∀ fuel start, ∀ w ∈ chunkWindows l cs ov fuel start, w.length ≤ cs + 1 := by
  intro fuel
  induction fuel with
  | zero =>
    intro start w hw
    simp [chunkWindows] at hw
  | succ f ih =>
    intro start w hw
    by_cases hs : start < l.length
    · simp only [chunkWindows, if_pos hs, List.mem_cons] at hw
      rcases hw with rfl | hmem
      · have h1 := substring_length_le l start (windowEnd l cs start)
        have h2 := windowEnd_le l cs start
        omega
      · exact ih _ w hmem
    · simp [chunkWindows, hs] at hw

theorem take_drop_append (l : List Char) (s e : Nat) (h : s ≤ e) :
    (l.take e).drop s ++ l.drop e = l.drop s := by
  by_cases hs : s ≤ (l.take e).length
  · conv_rhs => rw [← List.take_append_drop e l]
    rw [List.drop_append_eq_append_drop]
    congr 1
    rw [Nat.sub_eq_zero_of_le hs, List.drop_zero]
  · have hL : l.length < s := by
      by_cases hLe : l.length ≤ e
      · rw [List.length_take, Nat.min_eq_right hLe] at hs
        omega
      · rw [List.length_take, Nat.min_eq_left (by omega : e ≤ l.length)] at hs
        omega
    have h1 : (l.take e).drop s = [] := List.drop_eq_nil_of_le (by
      rw [List.length_take]
      exact le_trans (Nat.min_le_right _ _) (le_of_lt hL))
    have h2 : l.drop e = [] := List.drop_eq_nil_of_le (by omega)
    rw [h1, h2, List.drop_eq_nil_of_le (by omega)]
    rfl

/-- The tails of the windows past the overlap tile the rest of the text
exactly. -/
theorem chunkWindows_drop_flatten (l : List Char) (cs ov : Nat)
    (hcs : 0 < cs) (hov : 2 * ov ≤ cs) :
    ∀ fuel start, l.length ≤ start + fuel →
      ((chunkWindows l cs ov fuel start).map (fun w => w.drop ov)).flatten =
        l.drop (start + ov) := by
  intro fuel
  induction fuel with
  | zero =>
    intro start hf
    have h0 : l.drop (start + ov) = [] := List.drop_eq_nil_of_le (by omega)
    simp [chunkWindows, h0]
  | succ f ih =>
    intro start hf
    by_cases hs : start < l.length
    · have hprog := windowEnd_progress l cs ov start hcs hov
      have hle := windowEnd_le l cs start
      have step : chunkWindows l cs ov (f + 1) start =
          substring l start (windowEnd l cs start) ::
            chunkWindows l cs ov f (windowEnd l cs start - ov) := by
        simp [chunkWindows, hs]
      rw [step]
      simp only [List.map_cons, List.flatten_cons]
      rw [ih (windowEnd l cs start - ov) (by omega)]
      have hov_e : windowEnd l cs start - ov + ov = windowEnd l cs start := by omega
      rw [hov_e]
      have hdd : (substring l start (windowEnd l cs start)).drop ov =
          (l.take (windowEnd l cs start)).drop (start + ov) := by
        unfold substring
        rw [List.drop_drop]
      rw [hdd]
      exact take_drop_append l (start + ov) (windowEnd l cs start) (by omega)
    · have h0 : l.drop (start + ov) = [] := List.drop_eq_nil_of_le (by omega)
      simp [chunkWindows, hs, h0]

/-- Concatenating the untrimmed windows with the overlap removed rebuilds the
text exactly. -/
theorem chunkWindows_reconstruct (l : List Char) (cs ov : Nat)
    (hcs : 0 < cs) (hov : 2 * ov ≤ cs) (hlong : cs < l.length) :
    concatOverlapRemoved ov (chunkWindows l cs ov (l.length + 1) 0) = l := by
  have h0 : 0 < l.length := by omega
  have hprog := windowEnd_progress l cs ov 0 hcs hov
  have step : chunkWindows l cs ov (l.length + 1) 0 =
      substring l 0 (windowEnd l cs 0) ::
        chunkWindows l cs ov l.length (windowEnd l cs 0 - ov) := by
    simp [chunkWindows, h0]
  rw [step]
  show substring l 0 (windowEnd l cs 0) ++
      ((chunkWindows l cs ov l.length (windowEnd l cs 0 - ov)).map
        (fun w => w.drop ov)).flatten = l
  rw [chunkWindows_drop_flatten l cs ov hcs hov l.length
    (windowEnd l cs 0 - ov) (by omega)]
  have he : windowEnd l cs 0 - ov + ov = windowEnd l cs 0 := by omega
  rw [he]
  have hsub : substring l 0 (windowEnd l cs 0) = l.take (windowEnd l cs 0) := by
    simp [substring]
  rw [hsub]
  exact List.take_append_drop _ _

/-! ### C9 -/

/-- C9 (counterexample): with chunk size 4 and overlap 1, the text
"aaaa.bbbb" has a sentence break exactly at the window edge; the first chunk
is "aaaa." of length 5 — one more than the chunk size — so chunks are not
bounded by the chunk size.  (The same happens at the production sizes
whenever a period sits exactly at offset start+chunkSize.) -/
theorem c9_counterexample :
    (createChunks "aaaa.bbbb".toList 4 1).head? = some "aaaa.".toList ∧
    ¬ (∀ c ∈ createChunks "aaaa.bbbb".toList 4 1, c.length ≤ 4) := by
  constructor
  · decide
  · decide

/-- C9 (amended): chunk windows are bounded by chunkSize + 1 (the preferred
break character is included, so a window may exceed the chunk size by one);
overlap is applied by rewinding the next start offset, and concatenating the
untrimmed windows with the overlap removed reconstructs the original text
exactly; the emitted chunks are exactly the whitespace-trims of the windows
with empty ones dropped, each differing from its window only by removed
leading/trailing whitespace. -/
theorem c9_chunk_bound_and_reconstruction
    (l : List Char) (cs ov : Nat) (hcs : 0 < cs) (hov : 2 * ov ≤ cs) :
    (∀ c ∈ createChunks l cs ov, c.length ≤ cs + 1) ∧
    (cs < l.length →
      concatOverlapRemoved ov (chunkWindows l cs ov (l.length + 1) 0) = l) ∧
    (cs < l.length →
      createChunks l cs ov =
        ((chunkWindows l cs ov (l.length + 1) 0).map trimChars).filter
          (fun c => 0 < c.length)) ∧
    (cs < l.length → ∀ c ∈ createChunks l cs ov,
      ∃ w ∈ chunkWindows l cs ov (l.length + 1) 0, c = trimChars w ∧
        ∃ p q, w = p ++ c ++ q ∧
          (∀ x ∈ p, isJsWhitespace x) ∧ (∀ x ∈ q, isJsWhitespace x)) := by
  refine ⟨?_, fun h => chunkWindows_reconstruct l cs ov hcs hov h, ?_, ?_⟩
  · intro c hc
    unfold createChunks at hc
    by_cases hlen : l.length ≤ cs
    · rw [if_pos hlen] at hc
      simp only [List.mem_singleton] at hc
      subst hc
      omega
    · rw [if_neg hlen] at hc
      simp only [List.mem_filter, List.mem_map] at hc
      obtain ⟨⟨w, hw, rfl⟩, -⟩ := hc
      exact le_trans (trimChars_length_le w)
        (chunkWindows_length_le l cs ov _ _ w hw)
  · intro hlong
    unfold createChunks
    rw [if_neg (by omega)]
  · intro hlong c hc
    unfold createChunks at hc
    rw [if_neg (by omega)] at hc
    simp only [List.mem_filter, List.mem_map] at hc
    obtain ⟨⟨w, hw, rfl⟩, -⟩ := hc
    obtain ⟨p, q, hdec, hp, hq⟩ := trimChars_decomposition w
    exact ⟨w, hw, rfl, p, q, hdec, hp, hq⟩

/-- Witness for C9 at the counterexample text: the window bound and the
exact reconstruction hold there. -/
theorem c9_witness :
    (∀ c ∈ createChunks "aaaa.bbbb".toList 4 1, c.length ≤ 4 + 1) ∧
    concatOverlapRemoved 1 (chunkWindows "aaaa.bbbb".toList 4 1
      ("aaaa.bbbb".toList.length + 1) 0) = "aaaa.bbbb".toList := by
  have h := c9_chunk_bound_and_reconstruction "aaaa.bbbb".toList 4 1
    (by decide) (by decide)
  exact ⟨h.1, h.2.1 (by decide)⟩

end WALLM
